import Mathlib

/-!
Verification of the call-tree tracer (`tracer.py`).

The Python `CallTree` is a rose tree: each node holds an optional payload
`value` and an ordered list of children, with a back-pointer to its parent.
We embed it as the inductive `CallTree V` below; a node's identity inside a
fixed tree is represented, where needed, by its path of child indices from
the root (the parent of the node at path `q ++ [k]` is the node at path `q`,
and the root, whose Python `parent_node` is `None`, has path `[]`).
-/

namespace Tracing

/-- The rose tree underlying `CallTree.__init__`: an optional node value and
an ordered child list. -/
inductive CallTree (V : Type) : Type where
  | node (value : Option V) (children : List (CallTree V)) : CallTree V
deriving Repr

namespace CallTree

variable {V : Type}

/-- `CallTree.children` (the live ordered child sequence `child_list`). -/
def children : CallTree V → List (CallTree V)
  | node _ cs => cs

/-- The node's `value` field. -/
def value : CallTree V → Option V
  | node v _ => v

@[simp] theorem children_node (v : Option V) (cs : List (CallTree V)) :
  (node v cs).children = cs := rfl

@[simp] theorem value_node (v : Option V) (cs : List (CallTree V)) :
  (node v cs).value = v := rfl

end CallTree

mutual
/-- Size measure used to justify the recursion in `filter`. -/
def CallTree.size {V : Type} : CallTree V → Nat
  | .node _ cs => 1 + sizeL cs
/-- Sum of sizes of a list of trees. -/
def sizeL {V : Type} : List (CallTree V) → Nat
  | [] => 0
  | t :: ts => t.size + sizeL ts
end

@[simp] theorem size_node {V : Type} (v : Option V) (cs : List (CallTree V)) :
  (CallTree.node v cs).size = 1 + sizeL cs := by
  rw [CallTree.size]

@[simp] theorem sizeL_nil {V : Type} : sizeL ([] : List (CallTree V)) = 0 := by
  rw [sizeL]

@[simp] theorem sizeL_cons {V : Type} (t : CallTree V) (ts : List (CallTree V)) :
  sizeL (t :: ts) = t.size + sizeL ts := by
  rw [sizeL]

theorem size_pos {V : Type} (t : CallTree V) : 0 < t.size := by
  cases t with
  | node v cs => simp

theorem size_lt_of_mem_children {V : Type} {c t : CallTree V}
    (h : c ∈ t.children) : c.size < t.size := by
  cases t with
  | node v cs =>
    simp only [CallTree.children_node] at h
    simp only [size_node]
    induction cs with
    | nil => cases h
    | cons x xs ih =>
      rcases List.mem_cons.mp h with rfl | h'
      · simp; omega
      · have := ih h'
        simp at this ⊢
        omega

mutual
/-- `find_shallowest_descendants(root, node)` from `CallTree.filter`, in the
case `node is not root` (the recursive case, where the predicate is
consulted): the first node on a branch satisfying the predicate is returned
and its subtree is not searched further. -/
def findShallow {V : Type} (p : CallTree V → Bool) : CallTree V → List (CallTree V)
  | .node v cs =>
    if p (.node v cs) then [.node v cs] else findShallowL p cs
/-- The `for c in node.children(): result.extend(...)` loop of
`find_shallowest_descendants`. -/
def findShallowL {V : Type} (p : CallTree V → Bool) : List (CallTree V) → List (CallTree V)
  | [] => []
  | t :: ts => findShallow p t ++ findShallowL p ts
end

@[simp] theorem findShallow_node {V : Type} (p : CallTree V → Bool) (v : Option V)
    (cs : List (CallTree V)) :
  findShallow p (.node v cs) =
    if p (.node v cs) then [.node v cs] else findShallowL p cs := by
  rw [findShallow]

@[simp] theorem findShallowL_nil {V : Type} (p : CallTree V → Bool) :
  findShallowL p ([] : List (CallTree V)) = [] := by
  rw [findShallowL]

@[simp] theorem findShallowL_cons {V : Type} (p : CallTree V → Bool) (t : CallTree V)
    (ts : List (CallTree V)) :
  findShallowL p (t :: ts) = findShallow p t ++ findShallowL p ts := by
  rw [findShallowL]

mutual
theorem size_le_of_mem_findShallow {V : Type} (p : CallTree V → Bool) :
    ∀ (t u : CallTree V), u ∈ findShallow p t → u.size ≤ t.size
  | .node v cs, u, h => by
    rw [findShallow_node] at h
    by_cases hp : p (.node v cs)
    · simp [hp] at h
      subst h
      exact le_refl _
    · simp [hp] at h
      have := size_le_of_mem_findShallowL p cs u h
      simp
      omega
theorem size_le_of_mem_findShallowL {V : Type} (p : CallTree V → Bool) :
    ∀ (ts : List (CallTree V)) (u : CallTree V), u ∈ findShallowL p ts → u.size ≤ sizeL ts
  | t :: ts, u, h => by
    rw [findShallowL_cons] at h
    rcases List.mem_append.mp h with h' | h'
    · have := size_le_of_mem_findShallow p t u h'
      simp
      omega
    · have := size_le_of_mem_findShallowL p ts u h'
      simp
      omega
end

theorem size_lt_of_mem_findShallowL_children {V : Type} {p : CallTree V → Bool}
    {v : Option V} {cs : List (CallTree V)} {u : CallTree V}
    (h : u ∈ findShallowL p cs) : u.size < (CallTree.node v cs).size := by
  have := size_le_of_mem_findShallowL p cs u h
  simp
  omega

/-- `CallTree.filter(predicate)`: builds a new tree with the original root
value and, as children, the recursively filtered shallowest matching
descendants (found from the direct children; the root itself is never passed
to the predicate, matching `node is not root` being false only for the
top-level call). -/
def CallTree.filter {V : Type} (p : CallTree V → Bool) (t : CallTree V) : CallTree V :=
  CallTree.node t.value
    ((findShallowL p t.children).attach.map fun c =>
      CallTree.filter p c.1)
termination_by t.size
decreasing_by
  cases t with
  | node v cs =>
    exact size_lt_of_mem_findShallowL_children c.2

theorem map_attach_eq_map {α β : Type} (l : List α) (f : α → β) :
    (l.attach.map fun x => f x.1) = l.map f := by
  induction l with
  | nil => rfl
  | cons a l ih => simp

theorem filter_eq {V : Type} (p : CallTree V → Bool) (v : Option V)
    (cs : List (CallTree V)) :
  CallTree.filter p (.node v cs) =
    CallTree.node v ((findShallowL p cs).map (CallTree.filter p)) := by
  rw [CallTree.filter]
  simp [map_attach_eq_map]

/-- Spec rendering of "descend depth-first; the first node on a branch that
satisfies the predicate is kept and its own subtree is not searched further
in this pass; if a branch has no matching node, nothing from that branch
appears", applied at one node of a branch. -/
def dfsKeepSpec {V : Type} (p : CallTree V → Bool) (t : CallTree V) : List (CallTree V) :=
  if p t then [t]
  else t.children.attach.flatMap fun c => dfsKeepSpec p c.1
termination_by t.size
decreasing_by
  exact size_lt_of_mem_children c.2

/-- Spec rendering of "the shallowest matching descendants of `self`,
starting from `self`'s direct children" (the root is not itself a
candidate). -/
def shallowestMatchingSpec {V : Type} (p : CallTree V → Bool) (t : CallTree V) :
    List (CallTree V) :=
  t.children.flatMap fun c => dfsKeepSpec p c

theorem flatMap_attach_eq {α β : Type} (l : List α) (f : α → List β) :
    (l.attach.flatMap fun x => f x.1) = l.flatMap f := by
  rw [List.flatMap, List.flatMap, map_attach_eq_map]

theorem dfs_list_eq_findShallowL {V : Type} (p : CallTree V → Bool) (n : Nat)
    (hn : ∀ t : CallTree V, t.size ≤ n → dfsKeepSpec p t = findShallow p t) :
    ∀ cs : List (CallTree V), sizeL cs ≤ n →
      cs.flatMap (dfsKeepSpec p) = findShallowL p cs := by
  intro cs
  induction cs with
  | nil => simp
  | cons c cs ih =>
    intro h
    simp only [List.flatMap_cons, findShallowL_cons]
    simp only [sizeL_cons] at h
    have hc := size_pos c
    rw [hn c (by omega), ih (by omega)]

theorem dfsKeepSpec_eq_findShallow {V : Type} (p : CallTree V → Bool) :
    ∀ (n : Nat) (t : CallTree V), t.size ≤ n → dfsKeepSpec p t = findShallow p t := by
  intro n
  induction n with
  | zero =>
    intro t h
    have := size_pos t
    omega
  | succ n ih =>
    intro t h
    cases t with
    | node v cs =>
      rw [dfsKeepSpec, findShallow_node]
      by_cases hp : p (.node v cs)
      · simp [hp]
      · simp only [hp, if_false]
        simp only [CallTree.children_node]
        rw [flatMap_attach_eq]
        apply dfs_list_eq_findShallowL p n ih
        simp at h
        omega

theorem shallowestMatchingSpec_eq {V : Type} (p : CallTree V → Bool)
    (t : CallTree V) : shallowestMatchingSpec p t = findShallowL p t.children := by
  rw [shallowestMatchingSpec]
  induction t.children with
  | nil => simp
  | cons c cs ih =>
    simp only [List.flatMap_cons, findShallowL_cons, ih]
    rw [dfsKeepSpec_eq_findShallow p c.size c (le_refl _)]

mutual
theorem findShallow_congr {V : Type} (p q : CallTree V → Bool) :
    ∀ (t : CallTree V), (∀ u : CallTree V, u.size ≤ t.size → q u = p u) →
      findShallow q t = findShallow p t
  | .node v cs, h => by
    rw [findShallow_node, findShallow_node, h (.node v cs) (le_refl _)]
    by_cases hp : p (.node v cs)
    · simp [hp]
    · simp only [hp, if_false]
      exact findShallowL_congr p q cs fun u hu => h u (by simp; omega)
theorem findShallowL_congr {V : Type} (p q : CallTree V → Bool) :
    ∀ (ts : List (CallTree V)), (∀ u : CallTree V, u.size ≤ sizeL ts → q u = p u) →
      findShallowL q ts = findShallowL p ts
  | [], _ => rfl
  | t :: ts, h => by
    rw [findShallowL_cons, findShallowL_cons]
    rw [findShallow_congr p q t fun u hu => h u (by simp; omega)]
    rw [findShallowL_congr p q ts fun u hu => h u (by simp; have := size_pos t; omega)]
end

theorem filter_congr_size {V : Type} (p q : CallTree V → Bool) :
    ∀ (n : Nat) (t : CallTree V), t.size ≤ n →
      (∀ u : CallTree V, u.size < t.size → q u = p u) →
      CallTree.filter q t = CallTree.filter p t := by
  intro n
  induction n with
  | zero =>
    intro t h
    have := size_pos t
    omega
  | succ n ih =>
    intro t h hagree
    cases t with
    | node v cs =>
      rw [filter_eq, filter_eq]
      have hfs : findShallowL q cs = findShallowL p cs :=
        findShallowL_congr p q cs fun u hu => hagree u (by simp; omega)
      rw [hfs]
      congr 1
      apply List.map_congr_left
      intro c hc
      have hcsize : c.size < (CallTree.node v cs).size :=
        size_lt_of_mem_findShallowL_children hc
      apply ih c
      · simp at h hcsize ⊢
        omega
      · intro u hu
        exact hagree u (lt_trans hu hcsize)

/-- Claim C2: `filter(predicate)` keeps the root's original value, never
tests the root against the predicate (any predicate agreeing with `p` on
every tree other than `t` produces the same result), and its children are
exactly the recursively filtered shallowest matching descendants, as
described by the spec (`shallowestMatchingSpec`). -/
theorem filter_matches_spec {V : Type} (p : CallTree V → Bool) (t : CallTree V) :
    (CallTree.filter p t).value = t.value
    ∧ (CallTree.filter p t).children =
        (shallowestMatchingSpec p t).map (CallTree.filter p)
    ∧ (∀ q : CallTree V → Bool,
        (∀ u : CallTree V, u ≠ t → q u = p u) →
        CallTree.filter q t = CallTree.filter p t) := by
  refine ⟨?_, ?_, ?_⟩
  · cases t with
    | node v cs => rw [filter_eq]; rfl
  · cases t with
    | node v cs =>
      rw [filter_eq, shallowestMatchingSpec_eq]
      rfl
  · intro q hq
    apply filter_congr_size p q t.size t (le_refl _)
    intro u hu
    apply hq
    intro he
    subst he
    omega

/-- Predicate matching exactly the nodes with value `2`, for the concrete
filter scenario. -/
def matchTwo : CallTree Nat → Bool
  | .node (some 2) _ => true
  | _ => false

/-- The chain root → A(1) → B(2) → C(3) from the spec's pruning scenario. -/
def chainTree : CallTree Nat :=
  .node none [.node (some 1) [.node (some 2) [.node (some 3) []]]]

/-- Witness for `filter_matches_spec`: on the concrete chain, filtering keeps
`B` directly under the root (A elided, C dropped), and the predicate-change
hypothesis of the third conjunct is discharged at a concrete predicate. -/
theorem filter_matches_spec_witness :
    CallTree.filter matchTwo chainTree = CallTree.node none [.node (some 2) []]
    ∧ CallTree.filter (fun u => matchTwo u) chainTree =
        CallTree.filter matchTwo chainTree := by
  constructor
  · rw [chainTree, filter_eq]
    simp [matchTwo, filter_eq]
  · exact (filter_matches_spec matchTwo chainTree).2.2
      (fun u => matchTwo u) (fun u _ => rfl)

/-! ## The `CallInfo` record and the node payloads built by the tracer -/

/-- Identity of a Python object as the tracer sees it: the name of its class
and its `id()` token. An `is` comparison between such objects is equality of
the `id()` component. -/
structure PyObjId where
  cls : String
  oid : Nat
deriving DecidableEq, Repr

/-- A Python exception instance: its class name (what `sys.exc_info()[0]`
reveals and `pop` records) together with an identity distinguishing this
instance from other instances of the same class (so that re-raising
"unchanged" is observable). -/
structure Exc where
  kind : String
  payload : Nat
deriving DecidableEq, Repr

/-- `CallInfo`: one function/method invocation. `deepcopy` of pure values is
the identity, so `__init__`'s copies store the arguments as given (the
mutation-independence of the copies is settled separately on the heap model
below). -/
structure CallInfo (α : Type) where
  obj : Option PyObjId
  f : Nat
  vargs : List α
  kwargs : List (String × α)
  returned : Option α := none
  raised : Option String := none
deriving DecidableEq, Repr

/-- The payloads occurring at tracer-built `CallTree` nodes: a `CallInfo`
record, a returned-value snapshot (`add_child(returned)`), or a plain string
label (`add_child('raised ...')`). -/
inductive NodeVal (α : Type) where
  | info (ci : CallInfo α)
  | ret (v : α)
  | str (s : String)
deriving DecidableEq, Repr

/-- Python's `repr` of an exception class object, as used by
`'raised {0}'.format(repr(raised))`: `repr(ValueError)` is
`<class 'ValueError'>`. -/
def pyClassRepr (kind : String) : String :=
  "<class \x27" ++ kind ++ "\x27>"

/-! ## The tracer state machine

`current_node` is represented by the path of child indices leading to it
from the root of `call_tree`; `current_node.parent()` is `dropLast`. -/

/-- `Tracer.__init__` / the state after `clear_call_tree`: an empty root
with the cursor on it. `is_suspended` is an `Int` because `unsuspend` may
drive it negative. -/
structure Tracer (α : Type) where
  call_tree : CallTree (NodeVal α)
  current_node : List Nat
  is_suspended : Int
deriving Repr

/-- A fresh `Tracer()`. -/
def Tracer.new (α : Type) : Tracer α :=
  { call_tree := .node none [], current_node := [], is_suspended := 0 }

/-- Subtree of `t` at path `q` (the node that `q` refers to), if the path
is valid. -/
def getAt {V : Type} : CallTree V → List Nat → Option (CallTree V)
  | t, [] => some t
  | .node _ cs, k :: q =>
    match cs[k]? with
    | some c => getAt c q
    | none => none

/-- Replace the `k`-th element of a list by `f` of it (no-op out of
range). -/
def listModify {β : Type} (f : β → β) : Nat → List β → List β
  | _, [] => []
  | 0, x :: xs => f x :: xs
  | k + 1, x :: xs => x :: listModify f k xs

/-- Apply `f` to the subtree of `t` at path `q` (no-op if the path is
invalid). -/
def modifyAt {V : Type} (f : CallTree V → CallTree V) : List Nat → CallTree V → CallTree V
  | [], t => f t
  | k :: q, .node v cs => .node v (listModify (modifyAt f q) k cs)

/-- `CallTree.add_child(value)` performed at the node `q` of a whole tree:
append a fresh leaf holding `value`. -/
def addChildAt {V : Type} (value : Option V) (q : List Nat) (t : CallTree V) : CallTree V :=
  modifyAt (fun u => .node u.value (u.children ++ [.node value []])) q t

/-- `Tracer.push(ci)`: `not self.is_suspended` is true exactly when the
counter is `0`; while active, `current_node = current_node.add_child(ci)`
(the fresh child sits at the old child count). -/
def Tracer.push {α : Type} (s : Tracer α) (ci : CallInfo α) : Tracer α :=
  if s.is_suspended = 0 then
    let n := match getAt s.call_tree s.current_node with
      | some t => t.children.length
      | none => 0
    { s with
      call_tree := addChildAt (some (.info ci)) s.current_node s.call_tree,
      current_node := s.current_node ++ [n] }
  else s

/-- The body of `Tracer.pop` acting on the current node: store the outcome
into the node's `CallInfo` (`returned`/`raised` assignment; the source would
fail with an `AttributeError` on a node without a `CallInfo` value, a state
the tracer protocol never reaches, modelled as leaving the value unchanged)
and append the outcome display leaf. `returned is not None` is the
outer branch. -/
def applyOutcome {α : Type} (returned : Option α) (raised : Option String) :
    CallTree (NodeVal α) → CallTree (NodeVal α)
  | t =>
    match returned with
    | some r =>
      let t' : CallTree (NodeVal α) := match t.value with
        | some (.info ci) => CallTree.node (some (.info { ci with returned := some r })) t.children
        | _ => t
      CallTree.node t'.value (t'.children ++ [.node (some (.ret r)) []])
    | none =>
      match raised with
      | some e =>
        let t' : CallTree (NodeVal α) := match t.value with
          | some (.info ci) => CallTree.node (some (.info { ci with raised := some e })) t.children
          | _ => t
        CallTree.node t'.value (t'.children ++ [.node (some (.str ("raised " ++ pyClassRepr e))) []])
      | none => t

/-- `Tracer.pop(returned, raised)`: while active, record the outcome at the
current node and move the cursor to its parent; while suspended, no-op. -/
def Tracer.pop {α : Type} (s : Tracer α) (returned : Option α) (raised : Option String) :
    Tracer α :=
  if s.is_suspended = 0 then
    { s with
      call_tree := modifyAt (applyOutcome returned raised) s.current_node s.call_tree,
      current_node := s.current_node.dropLast }
  else s

/-- `Tracer.suspend()`. -/
def Tracer.suspend {α : Type} (s : Tracer α) : Tracer α :=
  { s with is_suspended := s.is_suspended + 1 }

/-- `Tracer.unsuspend()`. -/
def Tracer.unsuspend {α : Type} (s : Tracer α) : Tracer α :=
  { s with is_suspended := s.is_suspended - 1 }

/-! ## Call scripts

A `Call` describes one invocation handed to `log_call`: the receiver, the
function, the arguments, the traced calls its body performs in order, and
how it completes. A body call that raises without being caught is expressed
by listing no further siblings and giving the parent the raising outcome. -/

/-- How an invocation completes: a normal return (`ret none` is Python's
`None`) or an uncaught exception. -/
inductive Outcome (α : Type) where
  | ret (v : Option α)
  | raised (e : Exc)
deriving DecidableEq, Repr

/-- One invocation passed to `log_call`, with the traced calls its body
makes. -/
inductive Call (α : Type) where
  | mk (obj : Option PyObjId) (f : Nat) (vargs : List α) (kwargs : List (String × α))
      (body : List (Call α)) (out : Outcome α)
deriving Repr

/-- The value `log_call` produces for its caller: the wrapped function's
result on normal return, the re-raised original exception on failure. -/
def Outcome.result {α : Type} : Outcome α → Except Exc (Option α)
  | .ret v => .ok v
  | .raised e => .error e

mutual
/-- `Tracer.log_call(obj, f, vargs, kwargs)` run over a call script: build
the entry `CallInfo` and push it when active, run the body's traced calls,
then pop with `returned=output` on normal return or, in the `except` arm,
with `raised = sys.exc_info()[0]` (the exception class) before re-raising.
Returns the final state and what the caller observes. -/
def Tracer.log_call {α : Type} (s : Tracer α) : Call α → Tracer α × Except Exc (Option α)
  | .mk obj f vargs kwargs body out =>
    let s₁ := if s.is_suspended = 0 then s.push { obj := obj, f := f, vargs := vargs, kwargs := kwargs } else s
    let s₂ := Tracer.log_calls s₁ body
    match out with
    | .ret v => (s₂.pop v none, .ok v)
    | .raised e => (s₂.pop none (some e.kind), .error e)
/-- The successive `log_call` invocations a function body performs. -/
def Tracer.log_calls {α : Type} (s : Tracer α) : List (Call α) → Tracer α
  | [] => s
  | c :: cs => Tracer.log_calls (Tracer.log_call s c).1 cs
end

/-- The outcome of a call as projected into the record's `returned` field. -/
def Outcome.retVal {α : Type} : Outcome α → Option α
  | .ret v => v
  | .raised _ => none

/-- The outcome of a call as projected into the record's `raised` field. -/
def Outcome.raisedKind {α : Type} : Outcome α → Option String
  | .ret _ => none
  | .raised e => some e.kind

/-- The display leaf `pop` appends for the outcome: none for a `None`
return, the returned snapshot for a value return, the
`'raised {0}'.format(repr(class))` label for an exception. -/
def Outcome.leaves {α : Type} : Outcome α → List (CallTree (NodeVal α))
  | .ret none => []
  | .ret (some v) => [.node (some (.ret v)) []]
  | .raised e => [.node (some (.str ("raised " ++ pyClassRepr e.kind))) []]

/-- The outcome of a call script. -/
def Call.out {α : Type} : Call α → Outcome α
  | .mk _ _ _ _ _ out => out

mutual
/-- The subtree a single traced call contributes to the log: its completed
record, then the subtrees of its body's calls in order, then the outcome
display leaf. -/
def traceOf {α : Type} : Call α → CallTree (NodeVal α)
  | .mk obj f vargs kwargs body out =>
    .node (some (.info { obj := obj, f := f, vargs := vargs, kwargs := kwargs,
                         returned := out.retVal, raised := out.raisedKind }))
      (tracesOf body ++ out.leaves)
/-- The subtrees of a list of traced calls, in call order. -/
def tracesOf {α : Type} : List (Call α) → List (CallTree (NodeVal α))
  | [] => []
  | c :: cs => traceOf c :: tracesOf cs
end

/-- Append the given subtrees at the end of the child list of the node at
path `q`. -/
def appendSubtreesAt {V : Type} (ts : List (CallTree V)) (q : List Nat) (t : CallTree V) :
    CallTree V :=
  modifyAt (fun u => .node u.value (u.children ++ ts)) q t

/-! ### Path surgery lemmas -/

@[simp] theorem listModify_nil {β : Type} (f : β → β) (k : Nat) :
  listModify f k ([] : List β) = [] := by
  cases k <;> rw [listModify]

@[simp] theorem listModify_zero {β : Type} (f : β → β) (x : β) (xs : List β) :
  listModify f 0 (x :: xs) = f x :: xs := by
  rw [listModify]

@[simp] theorem listModify_succ {β : Type} (f : β → β) (k : Nat) (x : β) (xs : List β) :
  listModify f (k + 1) (x :: xs) = x :: listModify f k xs := by
  rw [listModify]

theorem getElem?_listModify {β : Type} (f : β → β) :
    ∀ (k : Nat) (l : List β), (listModify f k l)[k]? = l[k]?.map f := by
  intro k
  induction k with
  | zero =>
    intro l
    cases l <;> simp
  | succ k ih =>
    intro l
    cases l with
    | nil => simp
    | cons x xs => simpa using ih xs

theorem listModify_listModify {β : Type} (f g : β → β) :
    ∀ (k : Nat) (l : List β),
      listModify f k (listModify g k l) = listModify (fun x => f (g x)) k l := by
  intro k
  induction k with
  | zero =>
    intro l
    cases l <;> simp
  | succ k ih =>
    intro l
    cases l with
    | nil => simp
    | cons x xs => simpa using ih xs

theorem listModify_congr {β : Type} {f g : β → β} :
    ∀ (k : Nat) (l : List β) (x : β), l[k]? = some x → f x = g x →
      listModify f k l = listModify g k l := by
  intro k
  induction k with
  | zero =>
    intro l x h hfg
    cases l with
    | nil => simp at h
    | cons y ys =>
      simp at h
      subst h
      simp [hfg]
  | succ k ih =>
    intro l x h hfg
    cases l with
    | nil => simp at h
    | cons y ys =>
      simp at h
      simpa using ih ys x h hfg

theorem listModify_concat_length {β : Type} (f : β → β) (l : List β) (x : β) :
    listModify f l.length (l ++ [x]) = l ++ [f x] := by
  induction l with
  | nil => simp
  | cons y ys ih => simpa using ih

@[simp] theorem getAt_nil {V : Type} (t : CallTree V) : getAt t [] = some t := by
  rw [getAt]

theorem getAt_cons {V : Type} (v : Option V) (cs : List (CallTree V)) (k : Nat)
    (q : List Nat) :
    getAt (CallTree.node v cs) (k :: q) =
      match cs[k]? with
      | some c => getAt c q
      | none => none := by
  rw [getAt]

@[simp] theorem modifyAt_nil {V : Type} (f : CallTree V → CallTree V) (t : CallTree V) :
  modifyAt f [] t = f t := by
  rw [modifyAt]

theorem modifyAt_cons {V : Type} (f : CallTree V → CallTree V) (k : Nat) (q : List Nat)
    (v : Option V) (cs : List (CallTree V)) :
    modifyAt f (k :: q) (.node v cs) = .node v (listModify (modifyAt f q) k cs) := by
  rw [modifyAt]

theorem getAt_modifyAt {V : Type} (f : CallTree V → CallTree V) :
    ∀ (q : List Nat) (t : CallTree V),
      getAt (modifyAt f q t) q = (getAt t q).map f := by
  intro q
  induction q with
  | nil =>
    intro t
    simp
  | cons k q ih =>
    intro t
    cases t with
    | node v cs =>
      rw [modifyAt_cons, getAt_cons, getAt_cons, getElem?_listModify]
      cases h : cs[k]? with
      | none => simp
      | some c => simpa using ih c

theorem getAt_append {V : Type} :
    ∀ (q r : List Nat) (t : CallTree V),
      getAt t (q ++ r) = (getAt t q).bind (fun u => getAt u r) := by
  intro q
  induction q with
  | nil =>
    intro r t
    simp
  | cons k q ih =>
    intro r t
    cases t with
    | node v cs =>
      rw [List.cons_append, getAt_cons, getAt_cons]
      cases h : cs[k]? with
      | none => simp
      | some c => simpa using ih r c

theorem modifyAt_append_modifyAt {V : Type} (g h : CallTree V → CallTree V) :
    ∀ (q r : List Nat) (t : CallTree V),
      modifyAt g (q ++ r) (modifyAt h q t) =
        modifyAt (fun u => modifyAt g r (h u)) q t := by
  intro q
  induction q with
  | nil =>
    intro r t
    simp
  | cons k q ih =>
    intro r t
    cases t with
    | node v cs =>
      rw [modifyAt_cons, List.cons_append, modifyAt_cons, modifyAt_cons,
        listModify_listModify]
      have hfg : (fun x => modifyAt g (q ++ r) (modifyAt h q x)) =
          modifyAt (fun u => modifyAt g r (h u)) q := funext fun x => ih r x
      rw [hfg]

theorem modifyAt_congr {V : Type} {f g : CallTree V → CallTree V} :
    ∀ (q : List Nat) (t u₀ : CallTree V), getAt t q = some u₀ → f u₀ = g u₀ →
      modifyAt f q t = modifyAt g q t := by
  intro q
  induction q with
  | nil =>
    intro t u₀ h hfg
    simp at h
    subst h
    simpa using hfg
  | cons k q ih =>
    intro t u₀ h hfg
    cases t with
    | node v cs =>
      rw [getAt_cons] at h
      rw [modifyAt_cons, modifyAt_cons]
      cases hc : cs[k]? with
      | none => simp [hc] at h
      | some c =>
        simp [hc] at h
        congr 1
        exact listModify_congr k cs c hc (ih c u₀ h hfg)

/-- Key composition fact: an operation performed at a path extending the
freshly appended child of the node at `q` stays inside that child. -/
theorem modifyAt_into_appended {V : Type} (g : CallTree V → CallTree V)
    (q r : List Nat) (t x u₀ : CallTree V) (hv : getAt t q = some u₀) :
    modifyAt g (q ++ u₀.children.length :: r) (appendSubtreesAt [x] q t) =
      appendSubtreesAt [modifyAt g r x] q t := by
  rw [appendSubtreesAt, appendSubtreesAt, modifyAt_append_modifyAt]
  apply modifyAt_congr q t u₀ hv
  cases u₀ with
  | node v cs =>
    simp only [CallTree.value_node, CallTree.children_node]
    rw [modifyAt_cons]
    rw [listModify_concat_length]

/-- Appending twice at the same node merges into one append. -/
theorem appendSubtreesAt_appendSubtreesAt {V : Type} (x : CallTree V)
    (ts : List (CallTree V)) (q : List Nat) (t : CallTree V) :
    appendSubtreesAt ts q (appendSubtreesAt [x] q t) =
      appendSubtreesAt (x :: ts) q t := by
  rw [appendSubtreesAt, appendSubtreesAt, appendSubtreesAt]
  have h := modifyAt_append_modifyAt
    (fun u => CallTree.node u.value (u.children ++ ts))
    (fun u => CallTree.node u.value (u.children ++ [x])) q [] t
  simp only [List.append_nil] at h
  rw [h]
  congr 1
  funext u
  simp

/-- The freshly appended child is found at the extended path. -/
theorem getAt_appended {V : Type} (q : List Nat) (t x u₀ : CallTree V)
    (hv : getAt t q = some u₀) :
    getAt (appendSubtreesAt [x] q t) (q ++ [u₀.children.length]) = some x := by
  rw [getAt_append, appendSubtreesAt, getAt_modifyAt, hv]
  cases u₀ with
  | node v cs =>
    show getAt (CallTree.node v (cs ++ [x])) [cs.length] = some x
    rw [getAt_cons]
    simp [List.getElem?_concat_length]

theorem listModify_id {β : Type} :
    ∀ (k : Nat) (l : List β), listModify (fun x => x) k l = l := by
  intro k
  induction k with
  | zero =>
    intro l
    cases l <;> simp
  | succ k ih =>
    intro l
    cases l with
    | nil => simp
    | cons x xs => simpa using ih xs

theorem modifyAt_id {V : Type} :
    ∀ (q : List Nat) (t : CallTree V), modifyAt (fun u => u) q t = t := by
  intro q
  induction q with
  | nil =>
    intro t
    simp
  | cons k q ih =>
    intro t
    cases t with
    | node v cs =>
      rw [modifyAt_cons]
      have : (modifyAt (fun u : CallTree V => u) q) = fun u => u := funext fun u => ih u
      rw [this, listModify_id]

@[simp] theorem appendSubtreesAt_nil {V : Type} (q : List Nat) (t : CallTree V) :
    appendSubtreesAt [] q t = t := by
  rw [appendSubtreesAt]
  have : (fun u : CallTree V => CallTree.node u.value (u.children ++ [])) = fun u => u := by
    funext u
    cases u with
    | node v cs => simp
  rw [this, modifyAt_id]

theorem push_zero {α : Type} (t : CallTree (NodeVal α)) (q : List Nat)
    (ci : CallInfo α) (u₀ : CallTree (NodeVal α)) (hv : getAt t q = some u₀) :
    Tracer.push ⟨t, q, 0⟩ ci =
      ⟨appendSubtreesAt [.node (some (.info ci)) []] q t,
        q ++ [u₀.children.length], 0⟩ := by
  rw [Tracer.push]
  simp only [hv]
  rfl

theorem pop_zero {α : Type} (t : CallTree (NodeVal α)) (q : List Nat)
    (returned : Option α) (raised : Option String) :
    Tracer.pop ⟨t, q, 0⟩ returned raised =
      ⟨modifyAt (applyOutcome returned raised) q t, q.dropLast, 0⟩ := by
  rw [Tracer.pop]
  rfl

theorem modifyAt_at_appended {V : Type} (g : CallTree V → CallTree V)
    (q : List Nat) (t x u₀ : CallTree V) (hv : getAt t q = some u₀) :
    modifyAt g (q ++ [u₀.children.length]) (appendSubtreesAt [x] q t) =
      appendSubtreesAt [g x] q t := by
  have h := modifyAt_into_appended g q [] t x u₀ hv
  simpa using h

theorem appendSubtreesAt_at_appended {V : Type} (ts : List (CallTree V))
    (q : List Nat) (t x u₀ : CallTree V) (hv : getAt t q = some u₀) :
    appendSubtreesAt ts (q ++ [u₀.children.length]) (appendSubtreesAt [x] q t) =
      appendSubtreesAt [CallTree.node x.value (x.children ++ ts)] q t := by
  exact modifyAt_at_appended (fun u => CallTree.node u.value (u.children ++ ts)) q t x u₀ hv

mutual
/-- What one `log_call` does, denotationally: from an active tracer whose
cursor points at a real node, it appends exactly `traceOf c` as a new last
child of the cursor node, leaves the cursor and the suspension counter as
they were, and hands the caller the wrapped call's own outcome. -/
theorem log_call_denote {α : Type} :
    ∀ (c : Call α) (t : CallTree (NodeVal α)) (q : List Nat)
      (u₀ : CallTree (NodeVal α)), getAt t q = some u₀ →
      Tracer.log_call ⟨t, q, 0⟩ c =
        (⟨appendSubtreesAt [traceOf c] q t, q, 0⟩, c.out.result)
  | .mk obj f vargs kwargs body out, t, q, u₀, hv => by
    rw [Tracer.log_call.eq_def]
    dsimp only
    rw [if_pos (rfl : (0 : Int) = 0)]
    rw [push_zero t q _ u₀ hv]
    have hv₁ := getAt_appended q t
      (CallTree.node (some (.info { obj := obj, f := f, vargs := vargs, kwargs := kwargs })) [])
      u₀ hv
    rw [log_calls_denote body _ _ _ hv₁]
    rw [appendSubtreesAt_at_appended (tracesOf body) q t _ u₀ hv]
    simp only [CallTree.value_node, CallTree.children_node, List.nil_append]
    cases out with
    | ret v =>
      dsimp only
      rw [pop_zero]
      rw [modifyAt_at_appended _ q t _ u₀ hv]
      rw [List.dropLast_concat]
      cases v with
      | none =>
        simp [applyOutcome, traceOf, Call.out, Outcome.result, Outcome.retVal,
          Outcome.raisedKind, Outcome.leaves]
      | some r =>
        simp [applyOutcome, traceOf, Call.out, Outcome.result, Outcome.retVal,
          Outcome.raisedKind, Outcome.leaves, CallTree.value, CallTree.children]
    | raised e =>
      dsimp only
      rw [pop_zero]
      rw [modifyAt_at_appended _ q t _ u₀ hv]
      rw [List.dropLast_concat]
      simp [applyOutcome, traceOf, Call.out, Outcome.result, Outcome.retVal,
        Outcome.raisedKind, Outcome.leaves, CallTree.value, CallTree.children]
/-- Denotation of a sequence of `log_call` invocations from an active
tracer: the cursor node gains the calls' subtrees, in order, as new last
children. -/
theorem log_calls_denote {α : Type} :
    ∀ (cs : List (Call α)) (t : CallTree (NodeVal α)) (q : List Nat)
      (u₀ : CallTree (NodeVal α)), getAt t q = some u₀ →
      Tracer.log_calls ⟨t, q, 0⟩ cs = ⟨appendSubtreesAt (tracesOf cs) q t, q, 0⟩
  | [], t, q, u₀, hv => by
    rw [Tracer.log_calls, tracesOf]
    simp
  | c :: cs, t, q, u₀, hv => by
    rw [Tracer.log_calls]
    rw [log_call_denote c t q u₀ hv]
    have hv' : getAt (appendSubtreesAt [traceOf c] q t) q =
        some (.node u₀.value (u₀.children ++ [traceOf c])) := by
      rw [appendSubtreesAt, getAt_modifyAt, hv]
      rfl
    rw [log_calls_denote cs _ q _ hv']
    rw [appendSubtreesAt_appendSubtreesAt, tracesOf]
end

theorem push_nonzero {α : Type} (t : CallTree (NodeVal α)) (q : List Nat) (n : Int)
    (ci : CallInfo α) (hn : n ≠ 0) : Tracer.push ⟨t, q, n⟩ ci = ⟨t, q, n⟩ := by
  rw [Tracer.push]
  rw [if_neg hn]

theorem pop_nonzero {α : Type} (t : CallTree (NodeVal α)) (q : List Nat) (n : Int)
    (returned : Option α) (raised : Option String) (hn : n ≠ 0) :
    Tracer.pop ⟨t, q, n⟩ returned raised = ⟨t, q, n⟩ := by
  rw [Tracer.pop]
  rw [if_neg hn]

mutual
/-- While the counter is nonzero (suspension), `log_call` leaves the whole
tracer state untouched but still runs the wrapped call and hands its
outcome through. -/
theorem log_call_suspended {α : Type} :
    ∀ (c : Call α) (t : CallTree (NodeVal α)) (q : List Nat) (n : Int), n ≠ 0 →
      Tracer.log_call ⟨t, q, n⟩ c = (⟨t, q, n⟩, c.out.result)
  | .mk obj f vargs kwargs body out, t, q, n, hn => by
    rw [Tracer.log_call.eq_def]
    dsimp only
    rw [if_neg hn]
    rw [log_calls_suspended body t q n hn]
    cases out with
    | ret v =>
      dsimp only
      rw [pop_nonzero t q n v none hn]
      simp [Call.out, Outcome.result]
    | raised e =>
      dsimp only
      rw [pop_nonzero t q n none (some e.kind) hn]
      simp [Call.out, Outcome.result]
theorem log_calls_suspended {α : Type} :
    ∀ (cs : List (Call α)) (t : CallTree (NodeVal α)) (q : List Nat) (n : Int), n ≠ 0 →
      Tracer.log_calls ⟨t, q, n⟩ cs = ⟨t, q, n⟩
  | [], t, q, n, _ => by
    rw [Tracer.log_calls]
  | c :: cs, t, q, n, hn => by
    rw [Tracer.log_calls]
    rw [log_call_suspended c t q n hn]
    exact log_calls_suspended cs t q n hn
end

/-! ## Depths: nesting depth of a script, node depths of a tree -/

/-- The body of a call script. -/
def Call.body {α : Type} : Call α → List (Call α)
  | .mk _ _ _ _ body _ => body

mutual
/-- Nesting depth of one call: itself plus the deepest nesting in its
body. -/
def callDepth {α : Type} : Call α → Nat
  | .mk _ _ _ _ body _ => 1 + callsDepth body
/-- Largest nesting depth among a sequence of calls (0 when empty). -/
def callsDepth {α : Type} : List (Call α) → Nat
  | [] => 0
  | c :: cs => max (callDepth c) (callsDepth cs)
end

mutual
/-- Depths (distance from the root, root at `d`) of every node of the
tree. -/
def nodeDepths {V : Type} (d : Nat) : CallTree V → List Nat
  | .node _ cs => d :: nodeDepthsL (d + 1) cs
/-- Depths of all nodes of a list of subtrees rooted at depth `d`. -/
def nodeDepthsL {V : Type} (d : Nat) : List (CallTree V) → List Nat
  | [] => []
  | t :: ts => nodeDepths d t ++ nodeDepthsL d ts
end

mutual
/-- Depths of the nodes holding a `CallInfo` record (root at `d`). -/
def infoDepths {α : Type} (d : Nat) : CallTree (NodeVal α) → List Nat
  | .node v cs =>
    (match v with
     | some (.info _) => [d]
     | _ => []) ++ infoDepthsL (d + 1) cs
/-- `infoDepths` over a list of subtrees rooted at depth `d`. -/
def infoDepthsL {α : Type} (d : Nat) : List (CallTree (NodeVal α)) → List Nat
  | [] => []
  | t :: ts => infoDepths d t ++ infoDepthsL d ts
end

/-- Largest element of a list of naturals (0 when empty). -/
def foldMax (l : List Nat) : Nat := l.foldr max 0

/-- Depth of the tree: the largest node depth. -/
def treeDepth {V : Type} (t : CallTree V) : Nat := foldMax (nodeDepths 0 t)

/-- Depth of the tree measured on call-record nodes only (outcome display
leaves and the empty root do not count). -/
def recordDepth {α : Type} (t : CallTree (NodeVal α)) : Nat := foldMax (infoDepths 0 t)

@[simp] theorem foldMax_nil : foldMax [] = 0 := rfl

@[simp] theorem foldMax_cons (a : Nat) (l : List Nat) :
  foldMax (a :: l) = max a (foldMax l) := rfl

theorem foldMax_append (l₁ l₂ : List Nat) :
    foldMax (l₁ ++ l₂) = max (foldMax l₁) (foldMax l₂) := by
  induction l₁ with
  | nil => simp
  | cons a l ih =>
    simp only [List.cons_append, foldMax_cons, ih]
    omega

theorem infoDepthsL_append {α : Type} (d : Nat) (xs ys : List (CallTree (NodeVal α))) :
    infoDepthsL d (xs ++ ys) = infoDepthsL d xs ++ infoDepthsL d ys := by
  induction xs with
  | nil => simp [infoDepthsL]
  | cons x xs ih =>
    rw [List.cons_append, infoDepthsL, infoDepthsL, ih, List.append_assoc]

theorem infoDepthsL_leaves {α : Type} (out : Outcome α) (d : Nat) :
    infoDepthsL d out.leaves = [] := by
  cases out with
  | ret v =>
    cases v with
    | none => simp [Outcome.leaves, infoDepthsL]
    | some r => simp [Outcome.leaves, infoDepthsL, infoDepths]
  | raised e => simp [Outcome.leaves, infoDepthsL, infoDepths]

theorem callDepth_eq {α : Type} (c : Call α) :
    callDepth c = 1 + callsDepth c.body := by
  cases c with
  | mk obj f vargs kwargs body out => rw [callDepth, Call.body]

mutual
theorem foldMax_infoDepths_traceOf {α : Type} :
    ∀ (c : Call α) (d : Nat),
      foldMax (infoDepths d (traceOf c)) = d + callsDepth c.body
  | .mk obj f vargs kwargs body out, d => by
    rw [traceOf, infoDepths]
    rw [infoDepthsL_append, infoDepthsL_leaves, List.append_nil, Call.body]
    have h := foldMax_infoDepthsL_tracesOf body d
    simp only [List.singleton_append, foldMax_cons]
    exact h
theorem foldMax_infoDepthsL_tracesOf {α : Type} :
    ∀ (cs : List (Call α)) (d : Nat),
      max d (foldMax (infoDepthsL (d + 1) (tracesOf cs))) = d + callsDepth cs
  | [], d => by
    simp [tracesOf, infoDepthsL, callsDepth]
  | c :: cs, d => by
    rw [tracesOf, infoDepthsL, foldMax_append, callsDepth]
    have h1 := foldMax_infoDepths_traceOf c (d + 1)
    have h2 := foldMax_infoDepthsL_tracesOf cs d
    have h3 := callDepth_eq c
    omega
end

/-! ## Concrete scenarios -/

/-- A single traced call of `f` (identity 0), no arguments, no inner traced
calls, returning the value 5. -/
def cRet5 : Call Int := .mk none 0 [] [] [] (.ret (some 5))

/-- A single traced call of `f` raising a `ValueError` instance. -/
def cRaiseVE : Call Int := .mk none 0 [] [] [] (.raised ⟨"ValueError", 0⟩)

/-! ## Claim C1 -/

/-- Claim C1, counterexample to the stated depth equality: tracing the
single (nesting depth 1) call `f()` returning 5 produces a tree of depth 2,
because `pop` appends the returned-value display leaf below the record. -/
theorem depth_equals_nesting_counterexample :
    treeDepth (Tracer.log_calls (Tracer.new Int) [cRet5]).call_tree = 2
    ∧ callsDepth [cRet5] = 1
    ∧ treeDepth (Tracer.log_calls (Tracer.new Int) [cRet5]).call_tree
        ≠ callsDepth [cRet5] := by
  refine ⟨rfl, rfl, by decide⟩

/-- Claim C1 (amended): after any `log_call` from an active tracer with a
valid cursor — nested calls and raising calls included — the cursor is the
exact node it started from; and over any script run on a fresh tracer the
depth of the recorded tree **measured on call-record nodes** equals the
nesting depth of the calls (the outcome display leaf appended for a
non-`None` return or a raise adds one extra level below the deepest
record). -/
theorem balance_invariant_amended {α : Type} :
    (∀ (s : Tracer α) (c : Call α) (u₀ : CallTree (NodeVal α)),
        s.is_suspended = 0 → getAt s.call_tree s.current_node = some u₀ →
        (Tracer.log_call s c).1.current_node = s.current_node)
    ∧ (∀ cs : List (Call α),
        (Tracer.log_calls (Tracer.new α) cs).current_node = []
        ∧ recordDepth (Tracer.log_calls (Tracer.new α) cs).call_tree = callsDepth cs) := by
  constructor
  · intro s c u₀ hs hv
    obtain ⟨t, q, n⟩ := s
    dsimp only at hs hv ⊢
    subst hs
    rw [log_call_denote c t q u₀ hv]
  · intro cs
    have h := log_calls_denote cs (.node none []) [] (.node none []) rfl
    constructor
    · show (Tracer.log_calls ⟨.node none [], [], 0⟩ cs).current_node = []
      rw [h]
    · show recordDepth (Tracer.log_calls ⟨.node none [], [], 0⟩ cs).call_tree = callsDepth cs
      rw [h]
      dsimp only
      rw [appendSubtreesAt, modifyAt_nil]
      simp only [CallTree.value_node, CallTree.children_node, List.nil_append]
      have h3 : infoDepths 0 (.node none (tracesOf cs)) = infoDepthsL 1 (tracesOf cs) := by
        rw [infoDepths]
        · rfl
        · intro ci hci
          cases hci
      rw [recordDepth, h3]
      have h2 := foldMax_infoDepthsL_tracesOf cs 0
      simpa using h2

/-- Witness for `balance_invariant_amended` at a concrete nested script:
`f()` calls `g()` which raises; the cursor returns to the root and the
record depth is the nesting depth 2. -/
theorem balance_invariant_amended_witness :
    (Tracer.log_call (Tracer.new Int)
        (.mk none 0 [] [] [.mk none 1 [] [] [] (.raised ⟨"ValueError", 0⟩)]
          (.raised ⟨"ValueError", 0⟩))).1.current_node = []
    ∧ recordDepth (Tracer.log_calls (Tracer.new Int)
        [.mk none 0 [] [] [.mk none 1 [] [] [] (.raised ⟨"ValueError", 0⟩)]
          (.raised ⟨"ValueError", 0⟩)]).call_tree =
      callsDepth [(.mk none 0 [] [] [.mk none 1 [] [] [] (.raised ⟨"ValueError", 0⟩)]
          (.raised ⟨"ValueError", 0⟩) : Call Int)] := by
  constructor
  · exact (@balance_invariant_amended Int).1 (Tracer.new Int) _ (.node none []) rfl rfl
  · exact ((@balance_invariant_amended Int).2 _).2

/-! ## Claim C3 -/

/-- Claim C3, counterexample to the exact leaf text: `pop` formats
`repr(sys.exc_info()[0])`, the `repr` of the exception *class*, so the leaf
reads `raised <class 'ValueError'>`, not `raised ValueError` (the exception
itself is still observed by the caller). -/
theorem raise_leaf_text_counterexample :
    (Tracer.log_call (Tracer.new Int) cRaiseVE).2 = .error ⟨"ValueError", 0⟩
    ∧ (Tracer.log_call (Tracer.new Int) cRaiseVE).1.call_tree =
        .node none [.node (some (.info { obj := none, f := 0, vargs := [], kwargs := [],
                                         returned := none, raised := some "ValueError" }))
          [.node (some (.str "raised <class \x27ValueError\x27>")) []]]
    ∧ "raised <class \x27ValueError\x27>" ≠ "raised ValueError" := by
  refine ⟨rfl, rfl, by decide⟩

/-- Claim C3 (amended): tracing `f()` where `f` raises produces a root with
one child holding the record for `f` (its `raised` field set to the
exception's class), whose single leaf child's text is
`'raised ' + repr(exception class)` — i.e. `raised <class 'ValueError'>`
for a `ValueError` — and the original exception instance is observed
unchanged by the external caller. -/
theorem raise_records_class_repr {α : Type} (f : Nat) (e : Exc) :
    Tracer.log_call (Tracer.new α) (.mk none f [] [] [] (.raised e)) =
      (⟨.node none [.node (some (.info { obj := none, f := f, vargs := [], kwargs := [],
                                         returned := none, raised := some e.kind }))
          [.node (some (.str ("raised " ++ pyClassRepr e.kind))) []]], [], 0⟩,
        .error e) := by
  have h := @log_call_denote α (.mk none f [] [] [] (.raised e)) (.node none []) []
    (.node none []) rfl
  show Tracer.log_call ⟨.node none [], [], 0⟩ _ = _
  rw [h]
  simp [appendSubtreesAt, traceOf, tracesOf, Call.out, Outcome.result,
    Outcome.retVal, Outcome.raisedKind, Outcome.leaves]

/-! ## Claim C5 -/

/-- Claim C5: `log_call` never swallows or alters a wrapped call's
completion — the caller observes exactly the wrapped call's own outcome
(the returned value unchanged on success, the identical exception instance
re-raised on failure) — and a raising call's record stores the error's
class name in the tree. -/
theorem log_call_propagates_errors {α : Type} :
    (∀ (s : Tracer α) (c : Call α), (Tracer.log_call s c).2 = c.out.result)
    ∧ (∀ (t : CallTree (NodeVal α)) (q : List Nat) (u₀ : CallTree (NodeVal α))
        (obj : Option PyObjId) (f : Nat) (vargs : List α) (kwargs : List (String × α))
        (body : List (Call α)) (e : Exc), getAt t q = some u₀ →
        Tracer.log_call ⟨t, q, 0⟩ (.mk obj f vargs kwargs body (.raised e)) =
          (⟨appendSubtreesAt [.node (some (.info { obj := obj, f := f, vargs := vargs,
                                                   kwargs := kwargs, returned := none,
                                                   raised := some e.kind }))
              (tracesOf body ++ [.node (some (.str ("raised " ++ pyClassRepr e.kind))) []])] q t,
            q, 0⟩, .error e)) := by
  constructor
  · intro s c
    obtain ⟨t, q, n⟩ := s
    cases c with
    | mk obj f vargs kwargs body out =>
      rw [Tracer.log_call.eq_def]
      cases out with
      | ret v => simp [Call.out, Outcome.result]
      | raised e => simp [Call.out, Outcome.result]
  · intro t q u₀ obj f vargs kwargs body e hv
    rw [log_call_denote _ t q u₀ hv]
    simp [traceOf, Call.out, Outcome.result, Outcome.retVal,
      Outcome.raisedKind, Outcome.leaves]

/-- Witness for `log_call_propagates_errors` at a concrete raising call. -/
theorem log_call_propagates_errors_witness :
    (Tracer.log_call (Tracer.new Int) (.mk none 7 [] [] [] (.raised ⟨"KeyError", 3⟩))).2 =
      .error ⟨"KeyError", 3⟩
    ∧ Tracer.log_call (⟨.node none [], [], 0⟩ : Tracer Int)
        (.mk none 7 [] [] [] (.raised ⟨"KeyError", 3⟩)) =
      (⟨.node none [.node (some (.info { obj := none, f := 7, vargs := [], kwargs := [],
                                         returned := none, raised := some "KeyError" }))
          [.node (some (.str "raised <class \x27KeyError\x27>")) []]], [], 0⟩,
        .error ⟨"KeyError", 3⟩) := by
  constructor
  · exact (@log_call_propagates_errors Int).1 (Tracer.new Int)
      (.mk none 7 [] [] [] (.raised ⟨"KeyError", 3⟩))
  · exact ((@log_call_propagates_errors Int).2 (.node none []) [] (.node none [])
      none 7 [] [] [] ⟨"KeyError", 3⟩ rfl).trans rfl

/-! ## Claim C8 -/

/-- Claim C8: whenever the suspension counter is nonzero — negative values
from unmatched `unsuspend` calls included, since `not self.is_suspended` is
true only at exactly 0 — `push` and `pop` are no-ops (tree and cursor
unchanged) and a whole `log_call` leaves the tracer state untouched. -/
theorem suspended_noop {α : Type} (s : Tracer α) (h : s.is_suspended ≠ 0) :
    (∀ ci : CallInfo α, s.push ci = s)
    ∧ (∀ (r : Option α) (e : Option String), Tracer.pop s r e = s)
    ∧ (∀ c : Call α, (Tracer.log_call s c).1 = s) := by
  obtain ⟨t, q, n⟩ := s
  dsimp only at h
  refine ⟨?_, ?_, ?_⟩
  · intro ci
    exact push_nonzero t q n ci h
  · intro r e
    exact pop_nonzero t q n r e h
  · intro c
    rw [log_call_suspended c t q n h]

/-- Witness for `suspended_noop` at the negative counter -1 (reached by an
unmatched `unsuspend`). -/
theorem suspended_noop_witness :
    Tracer.push (⟨.node none [], [], -1⟩ : Tracer Int)
        { obj := none, f := 0, vargs := [], kwargs := [] } =
      ⟨.node none [], [], -1⟩
    ∧ (Tracer.log_call (⟨.node none [], [], -1⟩ : Tracer Int) cRet5).1 =
      ⟨.node none [], [], -1⟩ := by
  constructor
  · exact (suspended_noop (⟨.node none [], [], -1⟩ : Tracer Int) (by decide)).1
      { obj := none, f := 0, vargs := [], kwargs := [] }
  · exact (suspended_noop (⟨.node none [], [], -1⟩ : Tracer Int) (by decide)).2.2 cRet5

/-! ## Claim C10 -/

/-- Claim C10: a traced call that completes normally with `None` gets no
outcome recorded at all — the record keeps its entry-time fields
(`returned` and `raised` both absent, exactly as a record whose outcome was
never set) and no outcome leaf is appended — yet the cursor still moves
back to the parent and the caller receives `None`. -/
theorem none_return_indistinguishable {α : Type} (t : CallTree (NodeVal α))
    (q : List Nat) (u₀ : CallTree (NodeVal α)) (obj : Option PyObjId) (f : Nat)
    (vargs : List α) (kwargs : List (String × α)) (body : List (Call α))
    (hv : getAt t q = some u₀) :
    Tracer.log_call ⟨t, q, 0⟩ (.mk obj f vargs kwargs body (.ret none)) =
      (⟨appendSubtreesAt [.node (some (.info { obj := obj, f := f, vargs := vargs,
                                               kwargs := kwargs })) (tracesOf body)] q t, q, 0⟩,
        .ok none) := by
  rw [log_call_denote _ t q u₀ hv]
  simp [traceOf, Call.out, Outcome.result, Outcome.retVal,
    Outcome.raisedKind, Outcome.leaves]

/-- Witness for `none_return_indistinguishable`: a concrete `None`-returning
call leaves just the bare entry record in the tree. -/
theorem none_return_indistinguishable_witness :
    Tracer.log_call (⟨.node none [], [], 0⟩ : Tracer Int)
        (.mk none 0 [] [] [] (.ret none)) =
      (⟨.node none [.node (some (.info { obj := none, f := 0, vargs := [],
                                         kwargs := [] })) []], [], 0⟩, .ok none) :=
  (@none_return_indistinguishable Int (.node none []) [] (.node none [])
    none 0 [] [] [] rfl).trans rfl

/-! ## `CallTree.height` (claim C4)

`height` walks parent links: in the path representation the node at path
`self` has a parent exactly when `self` is nonempty, and that parent is the
node at `self.dropLast`. -/

/-- The `while a.parent() is not None` loop of `CallTree.height`, one fuel
unit per iteration; `none` when the budget is exhausted, i.e. the loop has
not terminated within `fuel` iterations. The loop body is exactly the
source's: `a = self.parent()` (re-reading the original node's parent, not
the walker's) and `h += 1`. -/
def heightLoop (self : List Nat) : Nat → List Nat → Nat → Option Nat
  | 0, _, _ => none
  | fuel + 1, a, h =>
    if a = [] then some h else heightLoop self fuel self.dropLast (h + 1)

/-- `CallTree.height()` on the node at path `self`, with a step budget. -/
def height (self : List Nat) (fuel : Nat) : Option Nat :=
  heightLoop self fuel self 0

theorem heightLoop_stuck (self : List Nat) (hself : self.dropLast ≠ []) :
    ∀ (fuel : Nat) (a : List Nat) (h : Nat), a ≠ [] →
      heightLoop self fuel a h = none := by
  intro fuel
  induction fuel with
  | zero =>
    intro a h _
    rfl
  | succ fuel ih =>
    intro a h ha
    rw [heightLoop, if_neg ha]
    exact ih self.dropLast (h + 1) hself

/-- Claim C4 — the code is wrong: for every node at depth ≥ 2 the `height`
loop never terminates whatever the step budget, because each iteration
re-assigns the walker `a = self.parent()`; for depths 0 and 1 (where
`self.parent()` is the root or absent) it happens to return the correct
distance. -/
theorem height_diverges_at_depth_two :
    (∀ self : List Nat, 2 ≤ self.length → ∀ fuel : Nat, height self fuel = none)
    ∧ (∀ fuel : Nat, 2 ≤ fuel → height [] fuel = some 0 ∧ height [0] fuel = some 1) := by
  constructor
  · intro self hlen fuel
    rw [height]
    apply heightLoop_stuck
    · intro hd
      have := congrArg List.length hd
      rw [List.length_dropLast] at this
      simp at this
      omega
    · intro hd
      subst hd
      simp at hlen
  · intro fuel hfuel
    obtain ⟨f, rfl⟩ : ∃ f, fuel = f + 2 := ⟨fuel - 2, by omega⟩
    constructor
    · rw [height, heightLoop]
      simp
    · rw [height, heightLoop]
      simp [heightLoop]

/-- Witness for `height_diverges_at_depth_two`: the depth-2 node `[0, 0]`
never finishes in 5 steps, while the depth-1 node finishes with 1. -/
theorem height_diverges_at_depth_two_witness :
    height [0, 0] 5 = none ∧ height [0] 2 = some 1 :=
  ⟨height_diverges_at_depth_two.1 [0, 0] (by decide) 5,
    (height_diverges_at_depth_two.2 2 (by decide)).2⟩

/-! ## `remove_child_node` (claim C9)

`CallTree` defines no `__eq__`, so `child not in self.children()` and
`child_list.remove(child)` compare nodes by Python object identity. To make
identity observable we pair each node with its `id()` tag. -/

/-- A `CallTree` node annotated with its Python object identity. -/
inductive ITree (V : Type) : Type where
  | node (tid : Nat) (value : Option V) (children : List (ITree V)) : ITree V
deriving Repr

/-- The identity tag of the node. -/
def ITree.tid {V : Type} : ITree V → Nat
  | .node i _ _ => i

/-- `list.remove(x)` under identity comparison: drop the first element whose
identity is `x`'s. -/
def removeFirstById {V : Type} (i : Nat) : List (ITree V) → List (ITree V)
  | [] => []
  | c :: cs => if c.tid = i then cs else c :: removeFirstById i cs

/-- `CallTree.remove_child_node(child)`: if `child not in self.children()`
(identity comparison) raise `ValueError('child not found')`, else
`self.child_list.remove(child)`. -/
def remove_child_node {V : Type} (t : ITree V) (child : ITree V) : Except String (ITree V) :=
  match t with
  | .node i v cs =>
    if cs.any (fun x => x.tid == child.tid) then
      .ok (.node i v (removeFirstById child.tid cs))
    else .error "child not found"

/-- Claim C9: `remove_child_node` drops the argument from the child sequence
when a direct child is identical to it, and fails with the
`'child not found'` error when none is — membership is decided by identity,
not value equality: concretely, a node structurally equal to a direct child
(same value, same children) but with a different identity is rejected. -/
theorem remove_child_node_spec {V : Type} (i : Nat) (v : Option V)
    (cs : List (ITree V)) (child : ITree V) :
    ((∀ x ∈ cs, x.tid ≠ child.tid) →
        remove_child_node (.node i v cs) child = .error "child not found")
    ∧ (child ∈ cs →
        remove_child_node (.node i v cs) child =
          .ok (.node i v (removeFirstById child.tid cs)))
    ∧ remove_child_node (.node 0 (some 1) [.node 1 (some 2) []] : ITree Nat)
        (.node 2 (some 2) []) = .error "child not found" := by
  refine ⟨?_, ?_, rfl⟩
  · intro h
    rw [remove_child_node]
    have hc : cs.any (fun x => x.tid == child.tid) = false := by
      rw [List.any_eq_false]
      intro x hx
      simpa using h x hx
    rw [hc]
    rfl
  · intro hmem
    rw [remove_child_node]
    have hc : cs.any (fun x => x.tid == child.tid) = true := by
      rw [List.any_eq_true]
      exact ⟨child, hmem, by simp⟩
    rw [hc]
    rfl

/-- Witness for `remove_child_node_spec`: removing a present child succeeds
and drops it; removing from a childless node fails. -/
theorem remove_child_node_spec_witness :
    remove_child_node (.node 0 none [.node 5 (some 3) []] : ITree Nat)
        (.node 5 (some 3) []) = .ok (.node 0 none [])
    ∧ remove_child_node (.node 0 none [] : ITree Nat) (.node 5 (some 3) []) =
        .error "child not found" := by
  constructor
  · exact ((remove_child_node_spec 0 none [.node 5 (some 3) []]
      (.node 5 (some 3) [])).2.1 (List.mem_singleton.mpr rfl)).trans rfl
  · exact (remove_child_node_spec 0 none [] (.node 5 (some 3) [])).1
      (by intro x hx; cases hx)

/-! ## `for_object` (claim C7)

`for_object`'s filter predicate reads `n.parent().value`, so here `filter`
is instantiated with the parent's value threaded down the search: when
`find_shallowest_descendants` descends into the children of a node, that
node is their parent. The recursive `c.filter(predicate)` calls never test
their own root, so only the parent values *inside* each subtree matter. -/

mutual
/-- `find_shallowest_descendants` for a parent-reading predicate; `pv` is
the value of `t`'s parent in the original tree. -/
def findShallowPar {V : Type} (p : Option V → CallTree V → Bool) :
    Option V → CallTree V → List (CallTree V)
  | pv, .node v cs =>
    if p pv (.node v cs) then [.node v cs] else findShallowParL p v cs
/-- The loop over the children of a node whose value is `pv`. -/
def findShallowParL {V : Type} (p : Option V → CallTree V → Bool) :
    Option V → List (CallTree V) → List (CallTree V)
  | _, [] => []
  | pv, t :: ts => findShallowPar p pv t ++ findShallowParL p pv ts
end

mutual
theorem size_le_of_mem_findShallowPar {V : Type} (p : Option V → CallTree V → Bool) :
    ∀ (pv : Option V) (t u : CallTree V), u ∈ findShallowPar p pv t → u.size ≤ t.size
  | pv, .node v cs, u, h => by
    rw [findShallowPar] at h
    by_cases hp : p pv (.node v cs)
    · simp [hp] at h
      subst h
      exact le_refl _
    · simp [hp] at h
      have := size_le_of_mem_findShallowParL p v cs u h
      simp
      omega
theorem size_le_of_mem_findShallowParL {V : Type} (p : Option V → CallTree V → Bool) :
    ∀ (pv : Option V) (ts : List (CallTree V)) (u : CallTree V),
      u ∈ findShallowParL p pv ts → u.size ≤ sizeL ts
  | pv, t :: ts, u, h => by
    rw [findShallowParL] at h
    rcases List.mem_append.mp h with h' | h'
    · have := size_le_of_mem_findShallowPar p pv t u h'
      simp
      omega
    · have := size_le_of_mem_findShallowParL p pv ts u h'
      simp
      omega
end

/-- `CallTree.filter(predicate)` for a parent-reading predicate. -/
def filterPar {V : Type} (p : Option V → CallTree V → Bool) (t : CallTree V) : CallTree V :=
  CallTree.node t.value
    ((findShallowParL p t.value t.children).attach.map fun c => filterPar p c.1)
termination_by t.size
decreasing_by
  cases t with
  | node v cs =>
    have := size_le_of_mem_findShallowParL p v cs c.1 c.2
    simp
    omega

theorem filterPar_eq {V : Type} (p : Option V → CallTree V → Bool) (v : Option V)
    (cs : List (CallTree V)) :
    filterPar p (.node v cs) =
      CallTree.node v ((findShallowParL p v cs).map (filterPar p)) := by
  rw [filterPar]
  simp [map_attach_eq_map]

/-- The `for_object` filter predicate,
`lambda n: (n.value.obj is obj) if isinstance(n.value, CallInfo) else (n.parent().value.obj is obj)`.
On a node whose own value is no `CallInfo` and whose parent's value is no
`CallInfo` either, the Python closure raises an `AttributeError`; in every
tree the tracer builds such a node does not exist (outcome leaves hang under
record nodes, and the root is never tested), so that unreachable branch is
modelled as not matching. -/
def objPred {α : Type} (o : PyObjId) (pv : Option (NodeVal α))
    (t : CallTree (NodeVal α)) : Bool :=
  match t.value with
  | some (.info ci) => ci.obj == some o
  | _ =>
    match pv with
    | some (.info ci) => ci.obj == some o
    | _ => false

/-- The rewriting loop of `for_object`: a `CallInfo` value is replaced by
`CallInfo(None, f, vargs, kwargs, returned, raised)` (a fresh record with
`obj` cleared, all other fields copied); any other value is untouched. -/
def scrubVal {α : Type} : NodeVal α → NodeVal α
  | .info ci => .info { obj := none, f := ci.f, vargs := ci.vargs, kwargs := ci.kwargs,
                        returned := ci.returned, raised := ci.raised }
  | .ret v => .ret v
  | .str s => .str s

mutual
/-- Replace every node value of the tree by `g` of it. -/
def mapValues {V : Type} (g : V → V) : CallTree V → CallTree V
  | .node v cs => .node (v.map g) (mapValuesL g cs)
/-- `mapValues` over a list of subtrees. -/
def mapValuesL {V : Type} (g : V → V) : List (CallTree V) → List (CallTree V)
  | [] => []
  | t :: ts => mapValues g t :: mapValuesL g ts
end

mutual
/-- `CallTree.descendants()`: pre-order, starting with `self`. -/
def descendants {V : Type} : CallTree V → List (CallTree V)
  | .node v cs => .node v cs :: descendantsL cs
/-- `descendants` of a list of subtrees, concatenated in order. -/
def descendantsL {V : Type} : List (CallTree V) → List (CallTree V)
  | [] => []
  | t :: ts => descendants t ++ descendantsL ts
end

/-- `CallTree.for_object(obj)`: filter with the object predicate, then
rewrite every retained `CallInfo` with its `obj` cleared. -/
def for_object {α : Type} (t : CallTree (NodeVal α)) (o : PyObjId) :
    CallTree (NodeVal α) :=
  mapValues scrubVal (filterPar (objPred o) t)

/-- Hex digit characters `0`-`9`, `A`-`F`. -/
def hexDigit (n : Nat) : Char :=
  if n < 10 then Char.ofNat (48 + n) else Char.ofNat (55 + n)

/-- Uppercase hex digits of `n`, most significant first (fuel-driven; empty
for 0). -/
def toHexCore : Nat → Nat → List Char
  | 0, _ => []
  | fuel + 1, n => if n = 0 then [] else toHexCore fuel (n / 16) ++ [hexDigit (n % 16)]

/-- Python `'{0:X}'.format(n)`. -/
def toHexUpper (n : Nat) : String :=
  if n = 0 then "0" else String.mk (toHexCore n n)

/-- Pad on the left with `0` to width `w` (Python's `08X` minimum width). -/
def padZero (w : Nat) (s : String) : String :=
  String.mk (List.replicate (w - s.length) '0') ++ s

/-- `CallInfo.object_id(obj)`: the identity token
`'{0}@0x{1:08X}.'.format(obj.__class__.__name__, id(obj))`, and `''` for
`None`. This is the prefix of the record's rendered line in `__repr__`. -/
def object_id (obj : Option PyObjId) : String :=
  match obj with
  | none => ""
  | some o => o.cls ++ "@0x" ++ padZero 8 (toHexUpper o.oid) ++ "."

theorem descendantsL_append {V : Type} (xs ys : List (CallTree V)) :
    descendantsL (xs ++ ys) = descendantsL xs ++ descendantsL ys := by
  induction xs with
  | nil => simp [descendantsL]
  | cons x xs ih =>
    rw [List.cons_append, descendantsL, descendantsL, ih, List.append_assoc]

mutual
theorem descendants_mapValues {V : Type} (g : V → V) :
    ∀ t : CallTree V, descendants (mapValues g t) = (descendants t).map (mapValues g)
  | .node v cs => by
    rw [mapValues, descendants, descendants, List.map_cons, mapValues]
    rw [descendantsL_mapValues g cs]
theorem descendantsL_mapValues {V : Type} (g : V → V) :
    ∀ ts : List (CallTree V),
      descendantsL (mapValuesL g ts) = (descendantsL ts).map (mapValues g)
  | [] => by rw [mapValuesL, descendantsL]; rfl
  | t :: ts => by
    rw [mapValuesL, descendantsL, descendantsL, List.map_append]
    rw [descendants_mapValues g t, descendantsL_mapValues g ts]
end

theorem mapValues_value {V : Type} (g : V → V) (t : CallTree V) :
    (mapValues g t).value = t.value.map g := by
  cases t with
  | node v cs => rw [mapValues]; rfl

/-- Claim C7: `for_object(obj)` is exactly "filter with the object
predicate, then rewrite each retained record with `obj` cleared": its
descendants are the filtered tree's descendants pointwise rewritten; every
record kept in the result has `obj = none`, so its rendered identity prefix
`object_id` is the empty string and `obj`'s identity token appears on no
retained record line; and each record of the filtered tree reappears as a
fresh record copying all fields but `obj`. -/
theorem for_object_scrubs {α : Type} (t : CallTree (NodeVal α)) (o : PyObjId) :
    for_object t o = mapValues scrubVal (filterPar (objPred o) t)
    ∧ descendants (for_object t o) =
        (descendants (filterPar (objPred o) t)).map (mapValues scrubVal)
    ∧ (∀ u ∈ descendants (for_object t o), ∀ ci : CallInfo α,
        u.value = some (.info ci) → ci.obj = none ∧ object_id ci.obj = "")
    ∧ (∀ u ∈ descendants (filterPar (objPred o) t), ∀ ci : CallInfo α,
        u.value = some (.info ci) →
          (mapValues scrubVal u) ∈ descendants (for_object t o)
          ∧ (mapValues scrubVal u).value =
              some (.info { obj := none, f := ci.f, vargs := ci.vargs,
                            kwargs := ci.kwargs, returned := ci.returned,
                            raised := ci.raised })) := by
  refine ⟨rfl, ?_, ?_, ?_⟩
  · rw [for_object, descendants_mapValues]
  · intro u hu ci hci
    rw [for_object, descendants_mapValues] at hu
    rcases List.mem_map.mp hu with ⟨w, _, rfl⟩
    rw [mapValues_value] at hci
    cases hw : w.value with
    | none =>
      rw [hw] at hci
      cases hci
    | some val =>
      rw [hw] at hci
      simp only [Option.map_some'] at hci
      cases hval : val with
      | info ci₀ =>
        rw [hval, scrubVal] at hci
        have : ci = { obj := none, f := ci₀.f, vargs := ci₀.vargs, kwargs := ci₀.kwargs,
                      returned := ci₀.returned, raised := ci₀.raised } := by
          injection hci with h
          injection h with h2
          exact h2.symm
        subst this
        exact ⟨rfl, rfl⟩
      | ret x =>
        rw [hval, scrubVal] at hci
        cases hci
      | str sx =>
        rw [hval, scrubVal] at hci
        cases hci
  · intro u hu ci hci
    constructor
    · rw [for_object, descendants_mapValues]
      exact List.mem_map.mpr ⟨u, hu, rfl⟩
    · rw [mapValues_value, hci]
      rfl

/-- A traced object with class `Foo` and identity 3. -/
def oC7 : PyObjId := ⟨"Foo", 3⟩

/-- A log with one record owned by `oC7`. -/
def tC7 : CallTree (NodeVal Int) :=
  .node none [.node (some (.info { obj := some ⟨"Foo", 3⟩, f := 1, vargs := [],
                                   kwargs := [] })) []]

/-- Witness for `for_object_scrubs`: on the concrete one-record log the view
keeps the record with its `obj` cleared, and the retained record carries no
identity token. -/
theorem for_object_scrubs_witness :
    for_object tC7 oC7 =
      .node none [.node (some (.info { obj := none, f := 1, vargs := [],
                                       kwargs := [] })) []]
    ∧ (({ obj := none, f := 1, vargs := [], kwargs := [] } : CallInfo Int).obj = none
        ∧ object_id ({ obj := none, f := 1, vargs := [],
                       kwargs := [] } : CallInfo Int).obj = "") := by
  have hev : for_object tC7 oC7 =
      .node none [.node (some (.info { obj := none, f := 1, vargs := [],
                                       kwargs := [] })) []] := by
    rw [for_object, tC7, filterPar_eq]
    simp [findShallowParL, findShallowPar, objPred, oC7, filterPar_eq,
      mapValues, mapValuesL, scrubVal]
  refine ⟨hev, ?_⟩
  exact (for_object_scrubs tC7 oC7).2.2.1
    (.node (some (.info { obj := none, f := 1, vargs := [], kwargs := [] })) [])
    (by rw [hev]; simp [descendants, descendantsL])
    { obj := none, f := 1, vargs := [], kwargs := [] }
    rfl

/-! ## Argument snapshots (claim C6)

Pure Lean values cannot be mutated, so `CallInfo.__init__`'s
`self.vargs = deepcopy(vargs)` / `self.kwargs = deepcopy(kwargs)` is settled
on a small mutable-object model: a heap of cells, each an integer atom or a
list of references to other cells; an argument is a reference. `deepcopy`
allocates fresh cells (recursively copying the reachable object graph, as
Python's does), mutation overwrites one cell in place, `repr` renders a value
through the heap. The fuel parameter bounds the recursion depth (a cycle
never finishes for any fuel; Python's memo handling of cycles is out of
scope of the claim). -/

/-- A Python object in the heap: an atom (rendered like an `int`) or a list
holding references to other cells. -/
inductive PyObj : Type where
  | atom (n : Int)
  | lst (refs : List Nat)
deriving DecidableEq, Repr

/-- The mutable store; a reference is an index into it. -/
abbrev Heap := List PyObj

/-- References stored directly in one cell. -/
def refsOf : PyObj → List Nat
  | .atom _ => []
  | .lst rs => rs

/-- In-place mutation of the object `r` (e.g. `xs[i] = v` or any other
update of the cell's contents). -/
def setCell (h : Heap) (r : Nat) (o : PyObj) : Heap := h.set r o

mutual
/-- `copy.deepcopy` of the value at `r`: fresh cells for the whole reachable
graph, appended at the end of the heap; returns the new heap and the
reference to the copy. -/
def deepcopy : Nat → Heap → Nat → Option (Heap × Nat)
  | 0, _, _ => none
  | fuel + 1, h, r =>
    match h[r]? with
    | none => none
    | some (.atom n) => some (h ++ [.atom n], h.length)
    | some (.lst rs) =>
      match deepcopyL fuel h rs with
      | none => none
      | some (h₂, rs₂) => some (h₂ ++ [.lst rs₂], h₂.length)
/-- `deepcopy` of each element of a list, left to right, threading the
heap. -/
def deepcopyL : Nat → Heap → List Nat → Option (Heap × List Nat)
  | _, h, [] => some (h, [])
  | 0, _, _ :: _ => none
  | fuel + 1, h, r :: rs =>
    match deepcopy fuel h r with
    | none => none
    | some (h₁, r₁) =>
      match deepcopyL fuel h₁ rs with
      | none => none
      | some (h₂, rs₂) => some (h₂, r₁ :: rs₂)
end

/-- `deepcopy` of a `kwargs` dict: the keys stay, each value is
deep-copied. -/
def deepcopyKw (fuel : Nat) : Heap → List (String × Nat) → Option (Heap × List (String × Nat))
  | h, [] => some (h, [])
  | h, (k, r) :: rest =>
    match deepcopy fuel h r with
    | none => none
    | some (h₁, r₁) =>
      match deepcopyKw fuel h₁ rest with
      | none => none
      | some (h₂, rest₂) => some (h₂, (k, r₁) :: rest₂)

mutual
/-- Python `repr` of the value at `r`, through the heap. -/
def reprVal : Nat → Heap → Nat → Option String
  | 0, _, _ => none
  | fuel + 1, h, r =>
    match h[r]? with
    | none => none
    | some (.atom n) => some (toString n)
    | some (.lst rs) =>
      match reprL fuel h rs with
      | none => none
      | some ss => some ("[" ++ String.intercalate ", " ss ++ "]")
/-- `repr` of each element of a list. -/
def reprL : Nat → Heap → List Nat → Option (List String)
  | _, _, [] => some []
  | 0, _, _ :: _ => none
  | fuel + 1, h, r :: rs =>
    match reprVal fuel h r with
    | none => none
    | some s =>
      match reprL fuel h rs with
      | none => none
      | some ss => some (s :: ss)
end

/-- `'{0}={1}'.format(k, repr(v))` for each keyword argument. -/
def reprKw (fuel : Nat) : Heap → List (String × Nat) → Option (List String)
  | _, [] => some []
  | h, (k, r) :: rest =>
    match reprVal fuel h r with
    | none => none
    | some s =>
      match reprKw fuel h rest with
      | none => none
      | some ss => some ((k ++ "=" ++ s) :: ss)

/-- The argument snapshots a `CallInfo` holds in the heap model (`obj`, `f`
and the outcome fields play no role in the snapshot property). -/
structure CallInfoH where
  vargs : List Nat
  kwargs : List (String × Nat)
deriving DecidableEq, Repr

/-- `CallInfo.__init__` on the heap model: deep-copy the positional
arguments and the keyword argument values at call time and store the
references to the copies. -/
def mkCallInfoH (fuel : Nat) (h : Heap) (vargs : List Nat)
    (kwargs : List (String × Nat)) : Option (Heap × CallInfoH) :=
  match deepcopyL fuel h vargs with
  | none => none
  | some (h₁, va) =>
    match deepcopyKw fuel h₁ kwargs with
    | none => none
    | some (h₂, kw) => some (h₂, ⟨va, kw⟩)

/-- `CallInfo.argstring`:
`', '.join([repr(v) for v in vargs] + ['{0}={1}'.format(k, repr(v)) for kwargs])`. -/
def argstring (fuel : Nat) (h : Heap) (ci : CallInfoH) : Option String :=
  match reprL fuel h ci.vargs with
  | none => none
  | some ps =>
    match reprKw fuel h ci.kwargs with
    | none => none
    | some ks => some (String.intercalate ", " (ps ++ ks))

/-- Every cell at index `≥ L` references only cells at indices `≥ L` (the
fresh region is closed). -/
def ClosedAbove (L : Nat) (h : Heap) : Prop :=
  ∀ (j : Nat) (o : PyObj), L ≤ j → h[j]? = some o → ∀ r ∈ refsOf o, L ≤ r

theorem ClosedAbove_of_len (h : Heap) : ClosedAbove h.length h := by
  intro j o hj ho r _
  have hlt : j < h.length := by
    by_contra hge
    rw [List.getElem?_eq_none (by omega)] at ho
    cases ho
  omega

theorem ClosedAbove_snoc {L : Nat} {h : Heap} {o : PyObj}
    (hca : ClosedAbove L h) (ho : ∀ r ∈ refsOf o, L ≤ r) :
    ClosedAbove L (h ++ [o]) := by
  intro j x hLj hx r hr
  rcases Nat.lt_trichotomy j h.length with hj | hj | hj
  · rw [List.getElem?_append_left hj] at hx
    exact hca j x hLj hx r hr
  · subst hj
    rw [List.getElem?_concat_length] at hx
    injection hx with hx
    subst hx
    exact ho r hr
  · rw [List.getElem?_eq_none (by simp; omega)] at hx
    cases hx

mutual
theorem deepcopy_fresh :
    ∀ (fuel : Nat) (h : Heap) (r : Nat) (h' : Heap) (r' : Nat),
      deepcopy fuel h r = some (h', r') →
      (∃ ext, h' = h ++ ext) ∧ h.length ≤ r' ∧ r' < h'.length ∧
        (∀ L, L ≤ h.length → ClosedAbove L h → ClosedAbove L h')
  | fuel + 1, h, r, h', r', heq => by
    rw [deepcopy] at heq
    cases hr : h[r]? with
    | none =>
      simp [hr] at heq
    | some o =>
      cases o with
      | atom n =>
        simp only [hr] at heq
        injection heq with heq
        injection heq with h1 h2
        subst h1
        subst h2
        refine ⟨⟨[.atom n], rfl⟩, le_refl _, by simp, ?_⟩
        intro L hL hca
        exact ClosedAbove_snoc hca (by intro x hx; cases hx)
      | lst rs =>
        simp only [hr] at heq
        cases hcl : deepcopyL fuel h rs with
        | none =>
          simp [hcl] at heq
        | some p =>
          obtain ⟨h₂, rs₂⟩ := p
          simp only [hcl] at heq
          injection heq with heq
          injection heq with h1 h2
          subst h1
          subst h2
          obtain ⟨⟨ext, hext⟩, hmem, hca2⟩ := deepcopyL_fresh fuel h rs h₂ rs₂ hcl
          refine ⟨⟨ext ++ [.lst rs₂], by rw [hext, List.append_assoc]⟩, ?_, by simp, ?_⟩
          · rw [hext]
            simp
          · intro L hL hca
            apply ClosedAbove_snoc (hca2 L hL hca)
            intro x hx
            exact le_trans hL (hmem x hx).1
theorem deepcopyL_fresh :
    ∀ (fuel : Nat) (h : Heap) (rs : List Nat) (h' : Heap) (rs' : List Nat),
      deepcopyL fuel h rs = some (h', rs') →
      (∃ ext, h' = h ++ ext) ∧ (∀ r' ∈ rs', h.length ≤ r' ∧ r' < h'.length) ∧
        (∀ L, L ≤ h.length → ClosedAbove L h → ClosedAbove L h')
  | fuel, h, [], h', rs', heq => by
    have hnil : deepcopyL fuel h [] = some (h, []) := by
      cases fuel <;> rfl
    rw [hnil] at heq
    injection heq with heq
    injection heq with h1 h2
    subst h1
    subst h2
    refine ⟨⟨[], by simp⟩, ?_, ?_⟩
    · intro x hx
      cases hx
    · intro L _ hca
      exact hca
  | fuel + 1, h, r :: rs, h', rs', heq => by
    rw [deepcopyL] at heq
    cases hc : deepcopy fuel h r with
    | none =>
      simp [hc] at heq
    | some p =>
      obtain ⟨h₁, r₁⟩ := p
      simp only [hc] at heq
      cases hcl : deepcopyL fuel h₁ rs with
      | none =>
        simp [hcl] at heq
      | some p₂ =>
        obtain ⟨h₂, rs₂⟩ := p₂
        simp only [hcl] at heq
        injection heq with heq
        injection heq with h1 h2
        subst h1
        subst h2
        obtain ⟨⟨ext₁, hext₁⟩, hr₁lo, hr₁hi, hca₁⟩ := deepcopy_fresh fuel h r h₁ r₁ hc
        obtain ⟨⟨ext₂, hext₂⟩, hmem₂, hca₂⟩ := deepcopyL_fresh fuel h₁ rs h₂ rs₂ hcl
        have hlen₁ : h.length ≤ h₁.length := by
          rw [hext₁]
          simp
        have hlen₂ : h₁.length ≤ h₂.length := by
          rw [hext₂]
          simp
        refine ⟨⟨ext₁ ++ ext₂, by rw [hext₂, hext₁, List.append_assoc]⟩, ?_, ?_⟩
        · intro x hx
          rcases List.mem_cons.mp hx with rfl | hx'
          · exact ⟨hr₁lo, by omega⟩
          · have := hmem₂ x hx'
            constructor
            · omega
            · exact this.2
        · intro L hL hca
          exact hca₂ L (by omega) (hca₁ L hL hca)
end

theorem deepcopyKw_fresh (fuel : Nat) :
    ∀ (kws : List (String × Nat)) (h : Heap) (h' : Heap) (kws' : List (String × Nat)),
      deepcopyKw fuel h kws = some (h', kws') →
      (∃ ext, h' = h ++ ext) ∧ (∀ p ∈ kws', h.length ≤ p.2 ∧ p.2 < h'.length) ∧
        (∀ L, L ≤ h.length → ClosedAbove L h → ClosedAbove L h') := by
  intro kws
  induction kws with
  | nil =>
    intro h h' kws' heq
    rw [deepcopyKw] at heq
    injection heq with heq
    injection heq with h1 h2
    subst h1
    subst h2
    refine ⟨⟨[], by simp⟩, ?_, ?_⟩
    · intro x hx
      cases hx
    · intro L _ hca
      exact hca
  | cons kr rest ih =>
    intro h h' kws' heq
    obtain ⟨k, r⟩ := kr
    rw [deepcopyKw] at heq
    cases hc : deepcopy fuel h r with
    | none =>
      simp [hc] at heq
    | some p =>
      obtain ⟨h₁, r₁⟩ := p
      simp only [hc] at heq
      cases hcl : deepcopyKw fuel h₁ rest with
      | none =>
        simp [hcl] at heq
      | some p₂ =>
        obtain ⟨h₂, rest₂⟩ := p₂
        simp only [hcl] at heq
        injection heq with heq
        injection heq with h1 h2
        subst h1
        subst h2
        obtain ⟨⟨ext₁, hext₁⟩, hr₁lo, hr₁hi, hca₁⟩ := deepcopy_fresh fuel h r h₁ r₁ hc
        obtain ⟨⟨ext₂, hext₂⟩, hmem₂, hca₂⟩ := ih h₁ h₂ rest₂ hcl
        have hlen₁ : h.length ≤ h₁.length := by
          rw [hext₁]
          simp
        have hlen₂ : h₁.length ≤ h₂.length := by
          rw [hext₂]
          simp
        refine ⟨⟨ext₁ ++ ext₂, by rw [hext₂, hext₁, List.append_assoc]⟩, ?_, ?_⟩
        · intro x hx
          rcases List.mem_cons.mp hx with rfl | hx'
          · exact ⟨hr₁lo, by omega⟩
          · have := hmem₂ x hx'
            constructor
            · omega
            · exact this.2
        · intro L hL hca
          exact hca₂ L (by omega) (hca₁ L hL hca)

theorem getElem?_setCell_ne (h : Heap) (idx r : Nat) (o : PyObj) (hne : idx ≠ r) :
    (setCell h idx o)[r]? = h[r]? := by
  rw [setCell, List.getElem?_set_ne hne]

mutual
theorem reprVal_set_low :
    ∀ (fuel : Nat) (L : Nat) (h : Heap) (r idx : Nat) (o : PyObj),
      ClosedAbove L h → L ≤ r → idx < L →
      reprVal fuel (setCell h idx o) r = reprVal fuel h r
  | 0, _, _, _, _, _, _, _, _ => rfl
  | fuel + 1, L, h, r, idx, o, hca, hr, hidx => by
    rw [reprVal, reprVal, getElem?_setCell_ne h idx r o (by omega)]
    cases hro : h[r]? with
    | none => rfl
    | some x =>
      cases x with
      | atom n => rfl
      | lst rs =>
        have hrs : ∀ r' ∈ rs, L ≤ r' := hca r (.lst rs) hr hro
        simp only [reprL_set_low fuel L h rs idx o hca hrs hidx]
theorem reprL_set_low :
    ∀ (fuel : Nat) (L : Nat) (h : Heap) (rs : List Nat) (idx : Nat) (o : PyObj),
      ClosedAbove L h → (∀ r ∈ rs, L ≤ r) → idx < L →
      reprL fuel (setCell h idx o) rs = reprL fuel h rs
  | fuel, L, h, [], idx, o, _, _, _ => by
    have hnil : ∀ hh : Heap, reprL fuel hh [] = some [] := by
      intro hh
      cases fuel <;> rfl
    rw [hnil, hnil]
  | 0, L, h, r :: rs, idx, o, _, _, _ => rfl
  | fuel + 1, L, h, r :: rs, idx, o, hca, hrs, hidx => by
    rw [reprL, reprL]
    rw [reprVal_set_low fuel L h r idx o hca (hrs r (by simp)) hidx]
    rw [reprL_set_low fuel L h rs idx o hca (fun x hx => hrs x (by simp [hx])) hidx]
end

theorem reprKw_set_low (fuel : Nat) :
    ∀ (kws : List (String × Nat)) (L : Nat) (h : Heap) (idx : Nat) (o : PyObj),
      ClosedAbove L h → (∀ p ∈ kws, L ≤ p.2) → idx < L →
      reprKw fuel (setCell h idx o) kws = reprKw fuel h kws := by
  intro kws
  induction kws with
  | nil =>
    intro L h idx o _ _ _
    rfl
  | cons kr rest ih =>
    intro L h idx o hca hkws hidx
    obtain ⟨k, r⟩ := kr
    rw [reprKw, reprKw]
    rw [reprVal_set_low fuel L h r idx o hca (hkws (k, r) (by simp)) hidx]
    rw [ih L h idx o hca (fun p hp => hkws p (by simp [hp])) hidx]

/-- Claim C6: the record's argument snapshots are deep and independent —
after `CallInfo.__init__` deep-copies the positional and keyword arguments,
overwriting **any** pre-existing object (in particular any argument object
or anything it reaches) leaves the record's displayed arguments
(`argstring`) unchanged, at every rendering budget. -/
theorem snapshot_independence (fuel₀ : Nat) (h₀ h₁ : Heap) (vargs : List Nat)
    (kwargs : List (String × Nat)) (ci : CallInfoH) (idx : Nat) (o : PyObj)
    (hmk : mkCallInfoH fuel₀ h₀ vargs kwargs = some (h₁, ci))
    (hidx : idx < h₀.length) :
    ∀ fuel : Nat, argstring fuel (setCell h₁ idx o) ci = argstring fuel h₁ ci := by
  intro fuel
  rw [mkCallInfoH] at hmk
  cases hva : deepcopyL fuel₀ h₀ vargs with
  | none =>
    simp [hva] at hmk
  | some p =>
    obtain ⟨hA, va⟩ := p
    simp only [hva] at hmk
    cases hkw : deepcopyKw fuel₀ hA kwargs with
    | none =>
      simp [hkw] at hmk
    | some p₂ =>
      obtain ⟨hB, kw⟩ := p₂
      simp only [hkw] at hmk
      injection hmk with hmk
      injection hmk with hmk1 hmk2
      subst hmk1
      subst hmk2
      obtain ⟨⟨ext₁, hext₁⟩, hva_mem, hca₁⟩ := deepcopyL_fresh fuel₀ h₀ vargs hA va hva
      obtain ⟨⟨ext₂, hext₂⟩, hkw_mem, hca₂⟩ := deepcopyKw_fresh fuel₀ kwargs hA hB kw hkw
      have hlenA : h₀.length ≤ hA.length := by
        rw [hext₁]
        simp
      have hca : ClosedAbove h₀.length hB :=
        hca₂ h₀.length hlenA (hca₁ h₀.length (le_refl _) (ClosedAbove_of_len h₀))
      rw [argstring, argstring]
      dsimp only
      rw [reprL_set_low fuel h₀.length hB va idx o hca
        (fun r hr => (hva_mem r hr).1) hidx]
      rw [reprKw_set_low fuel kw h₀.length hB idx o hca
        (fun p hp => le_trans hlenA (hkw_mem p hp).1) hidx]

/-- Witness for `snapshot_independence`: the argument is a list `[5]`
(cell 0 referencing the atom at cell 1); after the record snapshots it,
mutating the original atom cell to 9 leaves the displayed arguments at
`[5]`. -/
theorem snapshot_independence_witness :
    mkCallInfoH 10 [.lst [1], .atom 5] [0] [] =
      some ([.lst [1], .atom 5, .atom 5, .lst [2]], ⟨[3], []⟩)
    ∧ argstring 10 (setCell [.lst [1], .atom 5, .atom 5, .lst [2]] 1 (.atom 9)) ⟨[3], []⟩ =
        argstring 10 [.lst [1], .atom 5, .atom 5, .lst [2]] ⟨[3], []⟩
    ∧ argstring 10 [.lst [1], .atom 5, .atom 5, .lst [2]] ⟨[3], []⟩ = some "[5]" := by
  refine ⟨rfl, ?_, rfl⟩
  exact snapshot_independence 10 [.lst [1], .atom 5] [.lst [1], .atom 5, .atom 5, .lst [2]]
    [0] [] ⟨[3], []⟩ 1 (.atom 9) rfl (by decide) 10

end Tracing
